import Mathlib

/-!
Verification of the sentiment-analysis core of `app.py`
(class `SentimentAnalyzer`): text normalization with a bounded FIFO
cache, the priority-ordered override rule chain, and the decision
engine `analyze_sentiment`.

Texts are modelled as `List Char` (`Str`).  The external NLTK pieces
(`word_tokenize`, the stopword set, the WordNet lemmatizer) and the
VADER lexicon scorer are opaque dependencies of the repository and are
modelled as parameters (`NlpExt`); everything else is translated directly
from the source.  Python floats are idealized as rationals; `str.lower`
is modelled on the ASCII range (all patterns in the source are ASCII).
-/

/-- Texts are lists of characters. -/
abbrev Str := List Char

/-- Characters of a Lean string literal, used to transcribe the
string constants of the source. -/
def strL (s : String) : Str := s.data

/-- Python whitespace (`\s` for ASCII input): space, tab, newline,
carriage return, vertical tab, form feed. -/
def pyWs (c : Char) : Bool :=
  c = ' ' || c = '\t' || c = '\n' || c = '\r' || c = '\x0b' || c = '\x0c'

/-- Lowercasing, `str.lower()` on the ASCII range. -/
def lowerStr (t : Str) : Str := t.map Char.toLower

/-- Boolean prefix test on character lists. -/
def isPrefL : Str → Str → Bool
  | [], _ => true
  | _ :: _, [] => false
  | a :: as, b :: bs => a = b && isPrefL as bs

/-- Substring containment, Python `pat in text`. -/
def occurs (pat : Str) : Str → Bool
  | [] => isPrefL pat []
  | t@(_ :: rest) => isPrefL pat t || occurs pat rest

/-- Fueled worker for `replaceAll`. -/
def replaceGo (pat gloss : Str) : Nat → Str → Str
  | 0, t => t
  | _ + 1, [] => []
  | fuel + 1, t@(c :: rest) =>
    if isPrefL pat t then gloss ++ replaceGo pat gloss fuel (t.drop pat.length)
    else c :: replaceGo pat gloss fuel rest

/-- Python `str.replace`: replace every non-overlapping occurrence of
`pat` by `gloss`, scanning left to right and never rescanning the
inserted replacement. -/
def replaceAll (pat gloss t : Str) : Str :=
  if pat = [] then t else replaceGo pat gloss t.length t

/-- Character class of the URL regex
`http[s]?://(?:[a-zA-Z]|[0-9]|[$-_@.&+]|[!*\\(\\),]|(?:%[0-9a-fA-F][0-9a-fA-F]))+`.
The range `$-_` spans codepoints 0x24..0x5F, which subsumes the
percent-encoded alternative, `@.&+*\(),` and the digits. -/
def urlClassChar (c : Char) : Bool :=
  c.isAlpha || c.isDigit || (0x24 ≤ c.toNat && c.toNat ≤ 0x5F) || c = '!'

/-- Try to match the URL regex at the current position; on success
return the remainder of the text after the (greedy) match. -/
def urlMatchAt (t : Str) : Option Str :=
  let afterScheme : Option Str :=
    if isPrefL (strL "https://") t then some (t.drop 8)
    else if isPrefL (strL "http://") t then some (t.drop 7)
    else none
  afterScheme.bind fun rest =>
    match rest with
    | [] => none
    | c :: _ => if urlClassChar c then some (rest.dropWhile urlClassChar) else none

/-- Fueled worker for `urlStrip`. -/
def urlStripGo : Nat → Str → Str
  | 0, t => t
  | _ + 1, [] => []
  | fuel + 1, t@(c :: rest) =>
    match urlMatchAt t with
    | some rem => urlStripGo fuel rem
    | none => c :: urlStripGo fuel rest

/-- `self.url_pattern.sub("", text)`: delete every URL-shaped substring. -/
def urlStrip (t : Str) : Str := urlStripGo t.length t

/-- Does a non-whitespace word contain an `@` that has at least one
character before it and one after it (inside the word)?  This is
exactly when the regex `\S+@\S+` matches (and then consumes the whole
word). -/
def interiorAt : Bool → Str → Bool
  | _, [] => false
  | _, [_] => false
  | seenPre, c :: rest => (seenPre && c = '@') || interiorAt true rest

/-- Fueled worker for `emailStrip`. -/
def emailStripGo : Nat → Str → Str
  | 0, t => t
  | _ + 1, [] => []
  | fuel + 1, t@(c :: rest) =>
    if pyWs c then c :: emailStripGo fuel rest
    else
      let w := t.takeWhile (fun d => !pyWs d)
      let r := t.dropWhile (fun d => !pyWs d)
      (if interiorAt false w then [] else w) ++ emailStripGo fuel r

/-- `self.email_pattern.sub("", text)` for `\S+@\S+`: each maximal
non-whitespace run containing an interior `@` is deleted whole. -/
def emailStrip (t : Str) : Str := emailStripGo t.length t

/-- Characters kept by `special_chars_pattern`
`[^a-zA-Z0-9\s\.\!\?\,\;\:\-\(\)]` (every other character is replaced
by a space). -/
def keepChar (c : Char) : Bool :=
  c.isAlpha || c.isDigit || pyWs c ||
    c = '.' || c = '!' || c = '?' || c = ',' || c = ';' || c = ':' ||
    c = '-' || c = '(' || c = ')'

/-- `self.special_chars_pattern.sub(" ", text)`. -/
def specialStrip (t : Str) : Str :=
  t.map (fun c => if keepChar c then c else ' ')

/-- Fueled worker for the `\s+` → `" "` substitution. -/
def squeezeGo : Nat → Str → Str
  | 0, t => t
  | _ + 1, [] => []
  | fuel + 1, c :: rest =>
    if pyWs c then ' ' :: squeezeGo fuel (rest.dropWhile pyWs)
    else c :: squeezeGo fuel rest

/-- Python `str.strip()`: drop whitespace from both ends. -/
def stripEnds (t : Str) : Str :=
  ((t.dropWhile pyWs).reverse.dropWhile pyWs).reverse

/-- `self.whitespace_pattern.sub(" ", text).strip()`. -/
def collapseWs (t : Str) : Str := stripEnds (squeezeGo t.length t)

/-- Join tokens with single spaces, `" ".join(tokens)`. -/
def joinSpace : List Str → Str
  | [] => []
  | [w] => w
  | w :: ws => w ++ ' ' :: joinSpace ws

-- tests of the machinery on concrete data
example : occurs (strL "lit") (strL "literally") = true := by decide
example : replaceAll (strL "lit") (strL "excellent") (strL "literally") =
    strL "excellenterally" := by decide
example : urlStrip (strL "see http://a.b/c now") = strL "see  now" := by decide
example : emailStrip (strL "mail a@b now") = strL "mail  now" := by decide
example : specialStrip (strL "hi@#there") = strL "hi  there" := by decide
example : collapseWs (strL "  a   b  ") = strL "a b" := by decide
example : joinSpace [strL "a", strL "bc"] = strL "a bc" := by decide

/-! ## Slang and idiom tables (`self.idioms`, `self.slang_words`) -/

/-- `self.idioms`, in insertion order. -/
def idiomList : List (Str × Str) :=
  [ (strL "arm and a leg", strL "expensive"),
    (strL "letdown", strL "disappointment"),
    (strL "ages", strL "long time"),
    (strL "sick sound", strL "bad sound"),
    (strL "costs an arm and a leg", strL "expensive") ]

/-- `self.slang_words`, in insertion order. -/
def slangList : List (Str × Str) :=
  [ (strL "goat", strL "greatest of all time"),
    (strL "sick", strL "excellent"),
    (strL "lit", strL "excellent"),
    (strL "fire", strL "excellent"),
    (strL "dope", strL "excellent"),
    (strL "cool", strL "good") ]

/-- `_expand_slang_and_idioms`: `text_lower` is computed once at entry;
each table entry whose key occurs in that (stale) lowered copy is
substring-replaced in the live text, idioms first, then slang. -/
def expandSlangAndIdioms (t : Str) : Str :=
  let tl := lowerStr t
  (idiomList ++ slangList).foldl
    (fun acc pr => if occurs pr.1 tl then replaceAll pr.1 pr.2 acc else acc) t

/-! ## External dependencies -/

/-- The four numbers returned by the VADER `polarity_scores` call. -/
structure VaderScore where
  neg : ℚ
  neu : ℚ
  pos : ℚ
  compound : ℚ
  deriving DecidableEq

/-- External NLP dependencies of the analyzer: NLTK `word_tokenize`,
the English stopword set, the WordNet lemmatizer, and the VADER
scorer.  They are opaque third-party components, so the development is
parametric in them. -/
structure NlpExt where
  tokenize : Str → List Str
  isStop : Str → Bool
  lemmatize : Str → Str
  vader : Str → VaderScore

/-! ## Text normalizer (`preprocess_text`) -/

/-- The token list produced by the uncached normalization pipeline:
lowercase, expand idioms and slang, strip URLs, strip emails, replace
special characters by spaces, collapse whitespace, tokenize, drop
stopwords, lemmatize. -/
def finalTokens (E : NlpExt) (t : Str) : List Str :=
  ((E.tokenize (collapseWs (specialStrip (emailStrip (urlStrip
      (expandSlangAndIdioms (lowerStr t))))))).filter
    (fun tok => !E.isStop (lowerStr tok))).map E.lemmatize

/-- Result of the uncached normalization pipeline (the cache-miss path
of `preprocess_text`). -/
def preprocessPipeline (E : NlpExt) (t : Str) : Str :=
  joinSpace (finalTokens E t)

/-- The preprocessing cache: key/value pairs in insertion order
(Python dict preserves insertion order; `pop(next(iter(d)))` removes
the head). -/
abbrev Cache := List (Str × Str)

/-- First-match association lookup, `cache_key in d` / `d[cache_key]`. -/
def cacheFind (k : Str) : Cache → Option Str
  | [] => none
  | (k', v) :: rest => if k = k' then some v else cacheFind k rest

/-- `self._max_cache_size`. -/
def maxCacheSize : Nat := 1000

/-- `preprocess_text`: empty input returns `""` immediately; otherwise
look up the first 100 characters in the cache; on a hit return the
cached value; on a miss run the pipeline and store the result,
evicting the oldest entry first when the cache is full. -/
def preprocessText (E : NlpExt) (σ : Cache) (t : Str) : Str × Cache :=
  if t = [] then ([], σ)
  else
    match cacheFind (t.take 100) σ with
    | some v => (v, σ)
    | none =>
      let r := preprocessPipeline E t
      (r, (if maxCacheSize ≤ σ.length then σ.tail else σ) ++ [(t.take 100, r)])

/-! ## Rule chain (`_get_enhanced_sentiment` and helpers) -/

/-- Sentiment labels. -/
inductive Label where
  | negative
  | neutral
  | positive
  | mixed
  deriving DecidableEq

/-- Result record; `sentiment_label` is `label`.  The two text fields
are wrapped in an outer `Option`: `none` means the key is absent from
the returned dict (the empty-normalization branch omits both), and the
inner `Option Str` of `original_text` records the raw (possibly
non-string) input. -/
structure SResult where
  neg : ℚ
  neu : ℚ
  pos : ℚ
  compound : ℚ
  label : Label
  confidence : ℚ
  original_text : Option (Option Str)
  processed_text : Option Str
  deriving DecidableEq

/-- Rational constant `n / d`. -/
def dq (n : Int) (d : Nat) : ℚ := mkRat n d

/-- The constant negative override vector
`(0.8, 0.1, 0.1, -0.7, negative, 0.7)`. -/
def negVec (o p : Str) : SResult :=
  ⟨dq 8 10, dq 1 10, dq 1 10, dq (-7) 10, .negative, dq 7 10, some (some o), some p⟩

/-- The constant positive override vector
`(0.1, 0.1, 0.8, 0.7, positive, 0.7)`. -/
def posVec (o p : Str) : SResult :=
  ⟨dq 1 10, dq 1 10, dq 8 10, dq 7 10, .positive, dq 7 10, some (some o), some p⟩

/-- The constant mixed override vector
`(0.4, 0.2, 0.4, 0.0, mixed, 0.5)`. -/
def mixedVec (o p : Str) : SResult :=
  ⟨dq 4 10, dq 2 10, dq 4 10, dq 0 1, .mixed, dq 5 10, some (some o), some p⟩

/-- The conditional-statement vector `(0.7, 0.2, 0.1, -0.6, negative, 0.6)`. -/
def condVec (o p : Str) : SResult :=
  ⟨dq 7 10, dq 2 10, dq 1 10, dq (-6) 10, .negative, dq 6 10, some (some o), some p⟩

/-- The context-dependent neutral vector `(0.1, 0.8, 0.1, 0.0, neutral, 0.5)`. -/
def quietVec (o p : Str) : SResult :=
  ⟨dq 1 10, dq 8 10, dq 1 10, dq 0 1, .neutral, dq 5 10, some (some o), some p⟩

/-- The pre-compiled sarcasm regexes `self.sarcasm_patterns`, each of
the shape `A.*B` (all with sentiment `-1`). -/
def sarcasmPats : List (Str × Str) :=
  [ (strL "oh great", strL "delay"),
    (strL "oh wonderful", strL "problem"),
    (strL "love it when", strL "freeze"),
    (strL "exactly", strL "wanted"),
    (strL "perfect", strL "situation") ]

/-- Scan forward for an occurrence of `b` that is separated from the
current position only by non-newline characters (`.` of an `A.*B`
regex without DOTALL does not cross newlines). -/
def seekNoNl (b : Str) : Str → Bool
  | [] => isPrefL b []
  | t@(c :: rest) => isPrefL b t || (!(c = '\n') && seekNoNl b rest)

/-- `re.search` truth of the regex `a.*b` on `s`. -/
def dotStarMatch (a b : Str) : Str → Bool
  | [] => isPrefL a [] && seekNoNl b []
  | t@(_ :: rest) =>
    (isPrefL a t && seekNoNl b (t.drop a.length)) || dotStarMatch a b rest

/-- `_detect_sarcasm`: true iff some sarcasm regex matches the lowered
text (the method returns `-1` in that case, `0` otherwise). -/
def detectSarcasm (t : Str) : Bool :=
  let tl := lowerStr t
  sarcasmPats.any (fun pr => dotStarMatch pr.1 pr.2 tl)

/-- `self.double_negation_patterns`, in order. -/
def doubleNegPats : List (Str × Str) :=
  [ (strL "not bad", strL "good"),
    (strL "not terrible", strL "good"),
    (strL "not awful", strL "good"),
    (strL "don\x27t dislike", strL "like"),
    (strL "not ungood", strL "good"),
    (strL "not unhappy", strL "happy") ]

/-- `self.negation_words` (a set: only membership matters). -/
def negationWords : List Str :=
  [ strL "not", strL "no", strL "never", strL "nothing", strL "nowhere",
    strL "noone", strL "none", strL "not a", strL "isn\x27t", strL "aren\x27t",
    strL "wasn\x27t", strL "weren\x27t", strL "don\x27t", strL "doesn\x27t",
    strL "didn\x27t", strL "won\x27t", strL "wouldn\x27t", strL "couldn\x27t",
    strL "shouldn\x27t" ]

/-- `self.negation_patterns`, in order (plain substrings, searched). -/
def negationPats : List (Str × Str) :=
  [ (strL "not good", strL "bad"),
    (strL "not bad", strL "good"),
    (strL "not great", strL "bad"),
    (strL "not excellent", strL "bad"),
    (strL "not wonderful", strL "bad") ]

/-- `_handle_negation`: first matching double-negation pattern wins;
otherwise, if any negation word occurs, the first matching simple
negation pattern; otherwise `None`.  (The set-iteration order of
`negation_words` is irrelevant: the inner loop does not depend on
which word matched.) -/
def handleNegation (t : Str) : Option Str :=
  let tl := lowerStr t
  match doubleNegPats.find? (fun pr => occurs pr.1 tl) with
  | some pr => some pr.2
  | none =>
    if negationWords.any (fun w => occurs w tl) then
      (negationPats.find? (fun pr => occurs pr.1 tl)).map Prod.snd
    else none

/-- Outcome of the negation rule: positive vector iff the replacement
is one of `["good", "like", "happy", "excellent"]`. -/
def negationOutcome (o p : Str) : SResult :=
  match handleNegation o with
  | some rep =>
    if rep = strL "good" || rep = strL "like" || rep = strL "happy" ||
        rep = strL "excellent" then posVec o p
    else negVec o p
  | none => negVec o p

/-- Positive aspect words of the mixed-sentiment rule. -/
def posAspects : List Str :=
  [ strL "delicious", strL "beautiful", strL "good", strL "great",
    strL "excellent", strL "wonderful", strL "interesting" ]

/-- Negative aspect words of the mixed-sentiment rule. -/
def negAspects : List Str :=
  [ strL "terrible", strL "bad", strL "awful", strL "pathetic",
    strL "expensive", strL "disappointing", strL "wooden" ]

/-- The positive slang triggers of the slang rule. -/
def slangTriggers : List Str :=
  [ strL "goat", strL "sick", strL "lit", strL "fire" ]

/-- The `if`/`elif` chain of `_get_enhanced_sentiment` as an ordered
list of (fired?, outcome) pairs; the first fired entry wins.  Phrase
conditions test the lowered original text, aspect words test the
processed text. -/
def ruleChain (o p : Str) : List (Bool × SResult) :=
  let ol := lowerStr o
  [ (detectSarcasm o, negVec o p),
    ((handleNegation o).isSome, negationOutcome o p),
    ((occurs (strL " but ") ol || occurs (strL " however ") ol) &&
       posAspects.any (fun w => occurs w p) &&
       negAspects.any (fun w => occurs w p), mixedVec o p),
    (occurs (strL "plot was interesting") ol &&
       occurs (strL "acting was wooden") ol, mixedVec o p),
    (occurs (strL "if only") ol || occurs (strL "wish") ol, condVec o p),
    (occurs (strL "letdown") ol, negVec o p),
    (occurs (strL "sick sound") ol, negVec o p),
    (occurs (strL "disappointed") ol, negVec o p),
    (occurs (strL "wasn\x27t exactly") ol ||
       occurs (strL "was not exactly") ol, negVec o p),
    (occurs (strL "expected") ol &&
       (occurs (strL "but") ol || occurs (strL "yet") ol), negVec o p),
    (occurs (strL "clear as mud") ol, negVec o p),
    (occurs (strL "can\x27t complain") ol ||
       occurs (strL "cant complain") ol, posVec o p),
    (occurs (strL "wasn\x27t nearly as good") ol ||
       occurs (strL "not nearly as good") ol, negVec o p),
    (occurs (strL "at all costs") ol || occurs (strL "worst enemy") ol, negVec o p),
    (slangTriggers.any (fun w => occurs w ol), posVec o p),
    (occurs (strL "arm and a leg") ol || occurs (strL "ages") ol, negVec o p),
    (occurs (strL "surprisingly quiet") ol, quietVec o p),
    (occurs (strL "nightmare to navigate") ol, negVec o p),
    (occurs (strL "worst best movie") ol, posVec o p) ]

/-- `_get_enhanced_sentiment`: the outcome of the first rule that
fires, `None` when every rule abstains. -/
def getEnhancedSentiment (o p : Str) : Option SResult :=
  ((ruleChain o p).find? (fun e => e.1)).map (fun e => e.2)

/-! ## Rounding and the decision engine (`analyze_sentiment`) -/

/-- Python 3 `round` to an integer: round half to even. -/
def pyRoundInt (x : ℚ) : ℤ :=
  if x - ⌊x⌋ < 1 / 2 then ⌊x⌋
  else if 1 / 2 < x - ⌊x⌋ then ⌊x⌋ + 1
  else if 2 ∣ ⌊x⌋ then ⌊x⌋ else ⌊x⌋ + 1

/-- `round(x, 4)`. -/
def round4 (x : ℚ) : ℚ := (pyRoundInt (x * 10000) : ℚ) / 10000

/-- `round(x, 2)`. -/
def round2q (x : ℚ) : ℚ := (pyRoundInt (x * 100) : ℚ) / 100

/-- The zero-valued neutral result of the empty/non-string branch:
both text keys are present, `original_text` holds the raw input. -/
def zeroDegenerate (orig : Option Str) : SResult :=
  ⟨dq 0 1, dq 0 1, dq 0 1, dq 0 1, .neutral, dq 0 1, some orig, some []⟩

/-- The zero-valued neutral result of the empty-normalization branch:
the dict omits `original_text` and `processed_text`. -/
def zeroOmitted : SResult :=
  ⟨dq 0 1, dq 0 1, dq 0 1, dq 0 1, .neutral, dq 0 1, none, none⟩

/-- `analyze_sentiment`.  The input is `none` for a non-string
(e.g. `None`) argument, `some t` for a string.  Returns the result and
the updated preprocessing cache. -/
def analyzeSentiment (E : NlpExt) (σ : Cache) (input : Option Str) :
    SResult × Cache :=
  match input with
  | none => (zeroDegenerate none, σ)
  | some t =>
    if t = [] then (zeroDegenerate (some t), σ)
    else
      let pr := preprocessText E σ t
      if pr.1 = [] then (zeroOmitted, pr.2)
      else
        match getEnhancedSentiment t pr.1 with
        | some r => (r, pr.2)
        | none =>
          let v := E.vader pr.1
          let lab : Label :=
            if dq 5 100 ≤ v.compound then .positive
            else if v.compound ≤ dq (-5) 100 then .negative
            else .neutral
          (⟨round4 v.neg, round4 v.neu, round4 v.pos, round4 v.compound,
            lab, round4 |v.compound|, some (some t), some pr.1⟩, pr.2)

/-! ## A concrete instantiation of the external dependencies,
used to evaluate the model on closed inputs. -/

/-- Fueled worker for `splitWords`. -/
def splitGo : Nat → Str → List Str
  | 0, _ => []
  | _ + 1, [] => []
  | fuel + 1, t@(c :: rest) =>
    if pyWs c then splitGo fuel rest
    else t.takeWhile (fun d => !pyWs d) :: splitGo fuel (t.dropWhile (fun d => !pyWs d))

/-- Whitespace tokenizer used as a concrete `NlpExt.tokenize`. -/
def splitWords (t : Str) : List Str := splitGo t.length t

/-- A concrete, deterministic external environment: whitespace
tokenizer, empty stopword set, identity lemmatizer, and aVADER stub
that reacts to the word `wonderful`. -/
def extId : NlpExt where
  tokenize := splitWords
  isStop := fun _ => false
  lemmatize := fun w => w
  vader := fun p =>
    if occurs (strL "wonderful") p then ⟨dq 0 1, dq 0 1, dq 1 1, dq 9 10⟩
    else ⟨dq 1 10, dq 6 10, dq 3 10, dq (-2) 10⟩

example : splitWords (strL "hello world!") = [strL "hello", strL "world!"] := by
  decide
example : preprocessPipeline extId (strL "Hello World!") = strL "hello world!" := by
  decide
example : (preprocessText extId [] (strL "@@@")).1 = [] := by decide
example : getEnhancedSentiment (strL "alpha") (strL "alpha") = none := by decide
example :
    (analyzeSentiment extId [] (some (strL "literally reading"))).1.label =
      Label.positive := by decide

/-! ## Cache lemmas -/

theorem cacheFind_eq_none_iff (k : Str) (σ : Cache) :
    cacheFind k σ = none ↔ k ∉ σ.map Prod.fst := by
  induction σ with
  | nil => simp [cacheFind]
  | cons e rest ih =>
    obtain ⟨k', v⟩ := e
    by_cases h : k = k' <;> simp [cacheFind, h, ih]

theorem cacheFind_append_self (k v : Str) (l : Cache)
    (h : cacheFind k l = none) : cacheFind k (l ++ [(k, v)]) = some v := by
  induction l with
  | nil => simp [cacheFind]
  | cons e rest ih =>
    obtain ⟨k', w⟩ := e
    by_cases hk : k = k'
    · simp [cacheFind, hk] at h
    · simp only [cacheFind, if_neg hk] at h
      simpa [cacheFind, hk] using ih h

theorem cacheFind_tail_none (k : Str) (σ : Cache)
    (h : cacheFind k σ = none) : cacheFind k σ.tail = none := by
  cases σ with
  | nil => simpa using h
  | cons e rest =>
    obtain ⟨k', v⟩ := e
    by_cases hk : k = k'
    · simp [cacheFind, hk] at h
    · simpa using (by simpa only [cacheFind, if_neg hk] using h :
        cacheFind k rest = none)

/-- On a cache hit the normalizer returns the cached value and leaves
the cache untouched. -/
theorem preprocess_hit (E : NlpExt) (σ : Cache) (t v : Str) (ht : t ≠ [])
    (hfind : cacheFind (t.take 100) σ = some v) :
    preprocessText E σ t = (v, σ) := by
  simp [preprocessText, if_neg ht, hfind]

/-- Two (possibly different) texts with equal 100-character prefixes
receive the same normalization when processed in sequence. -/
theorem preprocess_same_key (E : NlpExt) (σ : Cache) (t₁ t₂ : Str)
    (h1 : t₁ ≠ []) (h2 : t₂ ≠ []) (hk : t₁.take 100 = t₂.take 100) :
    (preprocessText E ((preprocessText E σ t₁).2) t₂).1 =
      (preprocessText E σ t₁).1 := by
  simp only [preprocessText, if_neg h1, if_neg h2]
  cases h : cacheFind (t₁.take 100) σ with
  | some v =>
    simp only [h]
    rw [← hk, h]
  | none =>
    simp only [h]
    rw [← hk]
    have h2' : cacheFind (t₁.take 100)
        ((if maxCacheSize ≤ σ.length then σ.tail else σ) ++
          [(t₁.take 100, preprocessPipeline E t₁)]) =
        some (preprocessPipeline E t₁) := by
      apply cacheFind_append_self
      by_cases hlen : maxCacheSize ≤ σ.length
      · rw [if_pos hlen]; exact cacheFind_tail_none _ _ h
      · rw [if_neg hlen]; exact h
    rw [h2']

/-! ## Decision-engine path lemmas -/

/-- For a non-empty input the updated cache returned by
`analyze_sentiment` is exactly the one returned by `preprocess_text`. -/
theorem analyzeSentiment_snd (E : NlpExt) (σ : Cache) (t : Str) (ht : t ≠ []) :
    (analyzeSentiment E σ (some t)).2 = (preprocessText E σ t).2 := by
  simp only [analyzeSentiment, if_neg ht]
  by_cases hp : (preprocessText E σ t).1 = []
  · simp [hp]
  · simp only [if_neg hp]
    cases h : getEnhancedSentiment t (preprocessText E σ t).1 <;> simp [h]

/-- The result of `analyze_sentiment` depends on the cache only
through the processed text. -/
theorem analyzeSentiment_fst_congr (E : NlpExt) (σ₁ σ₂ : Cache) (t : Str)
    (h : (preprocessText E σ₁ t).1 = (preprocessText E σ₂ t).1) :
    (analyzeSentiment E σ₁ (some t)).1 = (analyzeSentiment E σ₂ (some t)).1 := by
  by_cases ht : t = []
  · subst ht; simp [analyzeSentiment]
  · simp only [analyzeSentiment, if_neg ht, h]
    by_cases hp : (preprocessText E σ₂ t).1 = []
    · simp [hp]
    · simp only [if_neg hp]
      cases henh : getEnhancedSentiment t (preprocessText E σ₂ t).1 <;> simp [henh]

/-- When a rule fires, `analyze_sentiment` returns its outcome. -/
theorem analyze_rule_path (E : NlpExt) (σ : Cache) (t : Str) (r : SResult)
    (ht : t ≠ []) (hp : (preprocessText E σ t).1 ≠ [])
    (h : getEnhancedSentiment t (preprocessText E σ t).1 = some r) :
    (analyzeSentiment E σ (some t)).1 = r := by
  simp [analyzeSentiment, if_neg ht, if_neg hp, h]

/-- When every rule abstains, `analyze_sentiment` returns the rounded
VADER scores with the thresholded label. -/
theorem analyze_scorer_path (E : NlpExt) (σ : Cache) (t : Str)
    (ht : t ≠ []) (hp : (preprocessText E σ t).1 ≠ [])
    (h : getEnhancedSentiment t (preprocessText E σ t).1 = none) :
    (analyzeSentiment E σ (some t)).1 =
      ⟨round4 (E.vader (preprocessText E σ t).1).neg,
       round4 (E.vader (preprocessText E σ t).1).neu,
       round4 (E.vader (preprocessText E σ t).1).pos,
       round4 (E.vader (preprocessText E σ t).1).compound,
       (if dq 5 100 ≤ (E.vader (preprocessText E σ t).1).compound then .positive
        else if (E.vader (preprocessText E σ t).1).compound ≤ dq (-5) 100 then .negative
        else .neutral),
       round4 |(E.vader (preprocessText E σ t).1).compound|,
       some (some t), some (preprocessText E σ t).1⟩ := by
  simp [analyzeSentiment, if_neg ht, if_neg hp, h]

/-! ## Claim C8 -/

/-- C8: for every non-empty input whose first-100-character prefix is
already a cache key, the normalizer returns the cached string and
leaves the cache unchanged (no re-validation against the full text);
consequently two texts sharing the same 100-character prefix receive
the same (possibly stale) normalization. -/
theorem cache_hit_short_circuit (E : NlpExt) (σ : Cache) :
    (∀ t v : Str, t ≠ [] → cacheFind (t.take 100) σ = some v →
      preprocessText E σ t = (v, σ)) ∧
    (∀ t₁ t₂ : Str, t₁ ≠ [] → t₂ ≠ [] → t₁.take 100 = t₂.take 100 →
      (preprocessText E ((preprocessText E σ t₁).2) t₂).1 =
        (preprocessText E σ t₁).1) :=
  ⟨fun t v ht hf => preprocess_hit E σ t v ht hf,
   fun t₁ t₂ h1 h2 hk => preprocess_same_key E σ t₁ t₂ h1 h2 hk⟩

/-- A run of 100 `x` characters, used to build colliding cache keys. -/
def xs100 : Str := List.replicate 100 'x'

/-- Witness for C8 at concrete inputs: a seeded cache entry is
returned verbatim, and two 101-character texts differing only in the
last character get the same normalization. -/
theorem cache_hit_short_circuit_witness :
    preprocessText extId [(strL "ab", strL "zz")] (strL "ab") =
      (strL "zz", [(strL "ab", strL "zz")]) ∧
    (preprocessText extId
        ((preprocessText extId [] (xs100 ++ strL "p")).2) (xs100 ++ strL "q")).1 =
      (preprocessText extId [] (xs100 ++ strL "p")).1 :=
  ⟨(cache_hit_short_circuit extId _).1 _ _ (by decide) (by decide),
   (cache_hit_short_circuit extId _).2 _ _ (by decide) (by decide) (by decide)⟩

/-! ## Claim C7 (amended part) -/

/-- C7 (amended): immediately re-invoking `analyze_sentiment` with the
identical input yields an identical result.  (The original claim —
identical results regardless of arbitrary calls made in between — is
refuted by `analyze_retry_not_history_invariant` below: FIFO eviction
plus a 100-character prefix collision can swap the cached
normalization between the two calls.) -/
theorem analyze_retry_deterministic (E : NlpExt) (σ : Cache)
    (input : Option Str) :
    (analyzeSentiment E ((analyzeSentiment E σ input).2) input).1 =
      (analyzeSentiment E σ input).1 := by
  cases input with
  | none => rfl
  | some t =>
    by_cases ht : t = []
    · subst ht; simp [analyzeSentiment]
    · rw [analyzeSentiment_snd E σ t ht]
      exact analyzeSentiment_fst_congr E _ σ t
        (preprocess_same_key E σ t t ht ht rfl)

/-! ## Claim C5 -/

/-- A `None`/non-string input returns the degenerate result carrying
the original value. -/
theorem analyze_none_eq (E : NlpExt) (σ : Cache) :
    (analyzeSentiment E σ none).1 = zeroDegenerate none := rfl

/-- An empty-string input returns the degenerate result carrying the
original value. -/
theorem analyze_nil_eq (E : NlpExt) (σ : Cache) :
    (analyzeSentiment E σ (some [])).1 = zeroDegenerate (some []) := by
  simp [analyzeSentiment]

/-- A non-empty input whose normalization is empty returns the
field-omitting zero result. -/
theorem analyze_empty_norm (E : NlpExt) (σ : Cache) (t : Str) (ht : t ≠ [])
    (hp : (preprocessText E σ t).1 = []) :
    (analyzeSentiment E σ (some t)).1 = zeroOmitted := by
  simp [analyzeSentiment, if_neg ht, hp]

/-- C5: a `None`/non-string input and the empty string both produce
the zero-valued neutral result that still carries the original text
and an empty `processed_text` (`zeroDegenerate`), whereas a non-empty
input whose normalization is empty produces the zero-valued neutral
result that omits both text fields (`zeroOmitted`). -/
theorem degenerate_input_asymmetry (E : NlpExt) (σ : Cache) :
    ((analyzeSentiment E σ none).1 = zeroDegenerate none) ∧
    ((analyzeSentiment E σ (some [])).1 = zeroDegenerate (some [])) ∧
    (∀ t : Str, t ≠ [] → (preprocessText E σ t).1 = [] →
      (analyzeSentiment E σ (some t)).1 = zeroOmitted) :=
  ⟨analyze_none_eq E σ, analyze_nil_eq E σ,
   fun t ht hp => analyze_empty_norm E σ t ht hp⟩

/-- Witness for C5: `"@@@"` is non-empty but normalizes to the empty
string (the email regex deletes it), so its result omits both text
fields; the empty string keeps them. -/
theorem degenerate_input_asymmetry_witness :
    (analyzeSentiment extId [] (some [])).1 = zeroDegenerate (some []) ∧
    (analyzeSentiment extId [] (some (strL "@@@"))).1 = zeroOmitted :=
  ⟨(degenerate_input_asymmetry extId []).2.1,
   (degenerate_input_asymmetry extId []).2.2 _ (by decide) (by decide)⟩

/-! ## Claim C10 -/

/-- All numeric fields zero, neutral label: the shape shared by both
degenerate result variants; such results sum to `0`, not `1`. -/
def ZeroScored (r : SResult) : Prop :=
  r.neg = 0 ∧ r.neu = 0 ∧ r.pos = 0 ∧ r.compound = 0 ∧ r.confidence = 0 ∧
    r.label = Label.neutral ∧ r.neg + r.neu + r.pos = 0 ∧
    r.neg + r.neu + r.pos ≠ 1

/-- C10: every empty or non-string input, and every input whose
normalization is empty, yields a result with
`neg = neu = pos = compound = confidence = 0` and label `neutral`,
whose score sum is `0` (not `1`) — the score-sum invariant holds only
for non-degenerate inputs. -/
theorem degenerate_scores_violate_sum (E : NlpExt) (σ : Cache) :
    (∀ input : Option Str, input = none ∨ input = some [] →
      ZeroScored (analyzeSentiment E σ input).1) ∧
    (∀ t : Str, t ≠ [] → (preprocessText E σ t).1 = [] →
      ZeroScored (analyzeSentiment E σ (some t)).1) := by
  have hdeg : ∀ orig : Option Str, ZeroScored (zeroDegenerate orig) := by
    intro orig
    norm_num [ZeroScored, zeroDegenerate, dq, Rat.mkRat_eq_div]
  have homit : ZeroScored zeroOmitted := by
    norm_num [ZeroScored, zeroOmitted, dq, Rat.mkRat_eq_div]
  refine ⟨?_, fun t ht hp => ?_⟩
  · rintro input (rfl | rfl)
    · exact hdeg none
    · rw [analyze_nil_eq E σ]
      exact hdeg (some [])
  · rw [analyze_empty_norm E σ t ht hp]
    exact homit

/-- Witness for C10: instances at `None` and at `" "` (non-empty, all
whitespace, so its normalization is empty). -/
theorem degenerate_scores_violate_sum_witness :
    ZeroScored (analyzeSentiment extId [] none).1 ∧
    ZeroScored (analyzeSentiment extId [] (some (strL " "))).1 :=
  ⟨(degenerate_scores_violate_sum extId []).1 none (Or.inl rfl),
   (degenerate_scores_violate_sum extId []).2 _ (by decide) (by decide)⟩

/-! ## Claim C4 -/

/-- When a sarcasm regex matches, the rule chain fires rule 1 and
returns the fixed negative vector, whatever the later rules would say. -/
theorem getEnhancedSentiment_of_sarcasm (o p : Str)
    (h : detectSarcasm o = true) :
    getEnhancedSentiment o p = some (negVec o p) := by
  simp [getEnhancedSentiment, ruleChain, h]

/-- C4: for every text that matches a sarcasm regex (rule 1) — in
particular one that also contains a positive-slang trigger (rule 16) —
`analyze_sentiment` returns rule 1's vector
`(0.8, 0.1, 0.1, -0.7, negative, 0.7)` and never rule 16's positive
vector. -/
theorem rule_precedence_sarcasm_over_slang (E : NlpExt) (σ : Cache) (t : Str)
    (ht : t ≠ []) (hp : (preprocessText E σ t).1 ≠ [])
    (hsarc : detectSarcasm t = true)
    (hslang : slangTriggers.any (fun w => occurs w (lowerStr t)) = true) :
    (analyzeSentiment E σ (some t)).1 = negVec t (preprocessText E σ t).1 ∧
    (analyzeSentiment E σ (some t)).1 ≠ posVec t (preprocessText E σ t).1 := by
  have h := analyze_rule_path E σ t (negVec t (preprocessText E σ t).1) ht hp
    (getEnhancedSentiment_of_sarcasm t (preprocessText E σ t).1 hsarc)
  refine ⟨h, ?_⟩
  rw [h]
  simp [negVec, posVec]

/-- A text matching both the sarcasm regex `oh great.*delay` (rule 1)
and the slang trigger `fire` (rule 16). -/
def c4text : Str := strL "oh great, the fire alarm delay"

/-- Witness for C4 at `c4text`. -/
theorem rule_precedence_sarcasm_over_slang_witness :
    (analyzeSentiment extId [] (some c4text)).1 =
      negVec c4text (preprocessText extId [] c4text).1 ∧
    (analyzeSentiment extId [] (some c4text)).1 ≠
      posVec c4text (preprocessText extId [] c4text).1 :=
  rule_precedence_sarcasm_over_slang extId [] c4text (by decide) (by decide)
    (by decide) (by decide)

/-! ## Claim C9 -/

/-- C9: the slang/idiom triggers are raw substring tests, not
word-boundary tests: `"literally reading"` contains no slang term as a
standalone word, yet `lit` inside `literally` fires rule 16's fixed
positive vector; `"he sent messages"` contains no idiom as a
standalone word, yet `ages` inside `messages` fires rule 17's fixed
negative vector (and the normalizer's substring replacement has
already mangled the processed text to `excellenterally reading`
resp. `he sent messlong time`). -/
theorem substring_triggers_fire_on_word_fragments :
    ((splitWords (lowerStr (strL "literally reading"))).all
        (fun w => !slangTriggers.any (fun s => w = s)) = true) ∧
    (analyzeSentiment extId [] (some (strL "literally reading"))).1 =
      posVec (strL "literally reading") (strL "excellenterally reading") ∧
    ((splitWords (lowerStr (strL "he sent messages"))).all
        (fun w => !(w = strL "ages" || w = strL "arm and a leg")) = true) ∧
    (analyzeSentiment extId [] (some (strL "he sent messages"))).1 =
      negVec (strL "he sent messages") (strL "he sent messlong time") := by
  decide

/-! ## Claim C3 -/

/-- C3: on the scorer path (non-empty input, non-empty normalization,
no rule fired) the label is `positive` iff the VADER compound is at
least `0.05`, `negative` iff it is at most `-0.05`, `neutral` exactly
otherwise, and the label is never `mixed`. -/
theorem scorer_label_threshold_law (E : NlpExt) (σ : Cache) (t : Str)
    (ht : t ≠ []) (hp : (preprocessText E σ t).1 ≠ [])
    (hrule : getEnhancedSentiment t (preprocessText E σ t).1 = none) :
    ((analyzeSentiment E σ (some t)).1.label = Label.positive ↔
      dq 5 100 ≤ (E.vader (preprocessText E σ t).1).compound) ∧
    ((analyzeSentiment E σ (some t)).1.label = Label.negative ↔
      (E.vader (preprocessText E σ t).1).compound ≤ dq (-5) 100) ∧
    ((analyzeSentiment E σ (some t)).1.label = Label.neutral ↔
      (¬ dq 5 100 ≤ (E.vader (preprocessText E σ t).1).compound ∧
       ¬ (E.vader (preprocessText E σ t).1).compound ≤ dq (-5) 100)) ∧
    (analyzeSentiment E σ (some t)).1.label ≠ Label.mixed := by
  rw [analyze_scorer_path E σ t ht hp hrule]
  by_cases h1 : dq 5 100 ≤ (E.vader (preprocessText E σ t).1).compound
  · have h2 : ¬ (E.vader (preprocessText E σ t).1).compound ≤ dq (-5) 100 := by
      intro h2
      have h3 : dq 5 100 ≤ dq (-5) 100 := le_trans h1 h2
      norm_num [dq, Rat.mkRat_eq_div] at h3
    simp [h1, h2]
  · by_cases h2 : (E.vader (preprocessText E σ t).1).compound ≤ dq (-5) 100
    · simp [h1, h2]
    · simp [h1, h2]

/-- Witness for C3: on `"beta"` no rule fires, the stub scorer returns
compound `-0.2 ≤ -0.05`, and the label is indeed `negative` (hence not
`mixed`). -/
theorem scorer_label_threshold_law_witness :
    (analyzeSentiment extId [] (some (strL "beta"))).1.label = Label.negative ∧
    (analyzeSentiment extId [] (some (strL "beta"))).1.label ≠ Label.mixed := by
  have H := scorer_label_threshold_law extId [] (strL "beta") (by decide)
    (by decide) (by decide)
  refine ⟨H.2.1.mpr ?_, H.2.2.2⟩
  have hv : (extId.vader (preprocessText extId [] (strL "beta")).1).compound =
      dq (-2) 10 := by decide
  rw [hv]
  norm_num [dq, Rat.mkRat_eq_div]

/-! ## Claim C6 -/

/-- Every outcome vector in the rule chain has scores summing to 1. -/
theorem ruleChain_snd_sum (o p : Str) (e : Bool × SResult)
    (he : e ∈ ruleChain o p) : e.2.neg + e.2.neu + e.2.pos = 1 := by
  have hneg : (negationOutcome o p).neg + (negationOutcome o p).neu +
      (negationOutcome o p).pos = 1 := by
    unfold negationOutcome
    cases handleNegation o with
    | none => norm_num [negVec, dq, Rat.mkRat_eq_div]
    | some rep =>
      dsimp only
      split_ifs <;> norm_num [negVec, posVec, dq, Rat.mkRat_eq_div]
  simp only [ruleChain, List.mem_cons, List.not_mem_nil, or_false] at he
  rcases he with he|he|he|he|he|he|he|he|he|he|he|he|he|he|he|he|he|he|he <;>
    subst he <;>
    first
      | simpa using hneg
      | norm_num [negVec, posVec, mixedVec, condVec, quietVec, dq,
          Rat.mkRat_eq_div]

/-- A fired rule returns scores summing to 1. -/
theorem enhanced_some_sum (o p : Str) (r : SResult)
    (h : getEnhancedSentiment o p = some r) :
    r.neg + r.neu + r.pos = 1 := by
  unfold getEnhancedSentiment at h
  rw [Option.map_eq_some'] at h
  obtain ⟨e, hfind, hsnd⟩ := h
  have hs := ruleChain_snd_sum o p e (List.mem_of_find?_eq_some hfind)
  rw [hsnd] at hs
  exact hs

theorem fract_bounds (x : ℚ) : 0 ≤ x - ⌊x⌋ ∧ x - ⌊x⌋ < 1 := by
  constructor
  · have := Int.floor_le x; linarith
  · have := Int.lt_floor_add_one x; linarith

/-- Half-to-even rounding moves a rational by at most `1/2`. -/
theorem abs_pyRoundInt_sub (x : ℚ) : |(pyRoundInt x : ℚ) - x| ≤ 1 / 2 := by
  obtain ⟨h0, h1⟩ := fract_bounds x
  unfold pyRoundInt
  split_ifs with ha hb hc <;>
    · rw [abs_le]
      push_cast
      push_neg at *
      constructor <;> linarith

/-- Any rational within `3/200` of `100` rounds to exactly `100`. -/
theorem pyRoundInt_eq_hundred (z : ℚ) (h : |z - 100| ≤ 3 / 200) :
    pyRoundInt z = 100 := by
  rw [abs_le] at h
  by_cases hz : 100 ≤ z
  · have hf : ⌊z⌋ = 100 := by
      rw [Int.floor_eq_iff]
      constructor <;> push_cast <;> linarith
    have h1 : z - ((100:ℤ):ℚ) < 1 / 2 := by push_cast; linarith
    unfold pyRoundInt
    rw [hf, if_pos h1]
  · push_neg at hz
    have hf : ⌊z⌋ = 99 := by
      rw [Int.floor_eq_iff]
      constructor <;> push_cast <;> linarith
    have h1 : ¬(z - ((99:ℤ):ℚ) < 1 / 2) := by push_cast; push_neg; linarith
    have h2 : (1:ℚ) / 2 < z - ((99:ℤ):ℚ) := by push_cast; linarith
    unfold pyRoundInt
    rw [hf, if_neg h1, if_pos h2]
    norm_num

/-- Rounding to 4 decimals moves a rational by at most `1/20000`. -/
theorem abs_round4_sub (x : ℚ) : |round4 x - x| ≤ 1 / 20000 := by
  unfold round4
  have h := abs_pyRoundInt_sub (x * 10000)
  have he : (pyRoundInt (x * 10000) : ℚ) / 10000 - x =
      ((pyRoundInt (x * 10000) : ℚ) - x * 10000) / 10000 := by ring
  rw [he, abs_div, abs_of_pos (by norm_num : (0:ℚ) < 10000)]
  rw [div_le_div_iff (by norm_num) (by norm_num : (0:ℚ) < 20000)]
  nlinarith [h]

/-- C6: for every non-empty input with non-empty normalization, the
returned `neg + neu + pos` rounds to `1.00` at two decimals — exactly
1 for the constant override vectors, and within rounding tolerance on
the scorer path assuming the VADER contract `neg + neu + pos = 1`. -/
theorem score_sum_invariant (E : NlpExt) (σ : Cache) (t : Str)
    (ht : t ≠ []) (hp : (preprocessText E σ t).1 ≠ [])
    (hsum : (E.vader (preprocessText E σ t).1).neg +
      (E.vader (preprocessText E σ t).1).neu +
      (E.vader (preprocessText E σ t).1).pos = 1) :
    round2q ((analyzeSentiment E σ (some t)).1.neg +
      (analyzeSentiment E σ (some t)).1.neu +
      (analyzeSentiment E σ (some t)).1.pos) = 1 := by
  cases h : getEnhancedSentiment t (preprocessText E σ t).1 with
  | some r =>
    rw [analyze_rule_path E σ t r ht hp h, enhanced_some_sum t _ r h]
    unfold round2q
    rw [pyRoundInt_eq_hundred (1 * 100) (by norm_num)]
    norm_num
  | none =>
    rw [analyze_scorer_path E σ t ht hp h]
    dsimp only
    have h1 := abs_round4_sub (E.vader (preprocessText E σ t).1).neg
    have h2 := abs_round4_sub (E.vader (preprocessText E σ t).1).neu
    have h3 := abs_round4_sub (E.vader (preprocessText E σ t).1).pos
    unfold round2q
    rw [pyRoundInt_eq_hundred]
    · norm_num
    · rw [abs_le] at h1 h2 h3 ⊢
      constructor <;> nlinarith [h1.1, h1.2, h2.1, h2.2, h3.1, h3.2]

/-- Witness for C6 on the scorer path at `"gamma"` (stub scorer sums
`0.1 + 0.6 + 0.3 = 1`). -/
theorem score_sum_invariant_witness :
    round2q ((analyzeSentiment extId [] (some (strL "gamma"))).1.neg +
      (analyzeSentiment extId [] (some (strL "gamma"))).1.neu +
      (analyzeSentiment extId [] (some (strL "gamma"))).1.pos) = 1 := by
  apply score_sum_invariant extId [] (strL "gamma") (by decide) (by decide)
  have hv : extId.vader (preprocessText extId [] (strL "gamma")).1 =
      ⟨dq 1 10, dq 6 10, dq 3 10, dq (-2) 10⟩ := by decide
  rw [hv]
  norm_num [dq, Rat.mkRat_eq_div]

/-! ## Claim C2 -/

/-- One FIFO store step of the cache: evict the oldest (head) entry
when at capacity, then append the new pair at the end. -/
def fifoStep (σ : Cache) (kv : Str × Str) : Cache :=
  (if maxCacheSize ≤ σ.length then σ.tail else σ) ++ [kv]

/-- On a miss with non-empty input, the updated cache is exactly one
FIFO step. -/
theorem preprocess_miss (E : NlpExt) (σ : Cache) (t : Str) (ht : t ≠ [])
    (h : cacheFind (t.take 100) σ = none) :
    (preprocessText E σ t).2 =
      fifoStep σ (t.take 100, preprocessPipeline E t) := by
  simp [preprocessText, if_neg ht, h, fifoStep]

/-- A single `preprocess_text` call never grows the cache beyond the
capacity. -/
theorem preprocess_length_le (E : NlpExt) (σ : Cache) (t : Str)
    (h : σ.length ≤ maxCacheSize) :
    ((preprocessText E σ t).2).length ≤ maxCacheSize := by
  by_cases ht : t = []
  · simpa [preprocessText, ht] using h
  · simp only [preprocessText, if_neg ht]
    cases hfind : cacheFind (t.take 100) σ with
    | some v => simpa using h
    | none =>
      by_cases hlen : maxCacheSize ≤ σ.length
      · have he : σ.length = maxCacheSize := le_antisymm h hlen
        simp [hlen, List.length_tail, he, maxCacheSize]
      · simp [hlen]
        omega

theorem mem_keys_fifoStep (k : Str) (σ : Cache) (kv : Str × Str)
    (h : k ∈ (fifoStep σ kv).map Prod.fst) :
    k ∈ σ.map Prod.fst ∨ k = kv.1 := by
  unfold fifoStep at h
  rw [List.map_append, List.mem_append] at h
  rcases h with h | h
  · by_cases hlen : maxCacheSize ≤ σ.length
    · rw [if_pos hlen] at h
      exact Or.inl (((List.tail_sublist σ).map Prod.fst).subset h)
    · rw [if_neg hlen] at h
      exact Or.inl h
  · right
    simpa using h

/-- Over fresh, pairwise-distinct keys the cached normalizer evolves
the cache exactly like a pure FIFO queue of (key, pipeline-result)
pairs. -/
theorem fold_preprocess_eq_fifo (E : NlpExt) :
    ∀ (ts : List Str) (σ : Cache), (∀ t ∈ ts, t ≠ []) →
      (ts.map (fun t => t.take 100)).Nodup →
      (∀ t ∈ ts, cacheFind (t.take 100) σ = none) →
      ts.foldl (fun σ' t => (preprocessText E σ' t).2) σ =
        ts.foldl (fun σ' t => fifoStep σ' (t.take 100, preprocessPipeline E t)) σ := by
  intro ts
  induction ts with
  | nil => intro σ _ _ _; rfl
  | cons t rest ih =>
    intro σ hne hnd hfresh
    simp only [List.foldl_cons]
    rw [preprocess_miss E σ t (hne t (by simp)) (hfresh t (by simp))]
    apply ih
    · intro u hu
      exact hne u (by simp [hu])
    · exact (by simpa using hnd : (t.take 100 :: rest.map (fun t => t.take 100)).Nodup).of_cons
    · intro u hu
      rw [cacheFind_eq_none_iff]
      intro hmem
      rcases mem_keys_fifoStep _ _ _ hmem with hm | hm
      · exact ((cacheFind_eq_none_iff _ _).mp (hfresh u (by simp [hu]))) hm
      · have hnd' := (List.nodup_cons.mp
          (by simpa using hnd :
            (t.take 100 :: rest.map (fun t => t.take 100)).Nodup)).1
        exact hnd' (List.mem_map.mpr ⟨u, hu, hm⟩)

/-- Below capacity the FIFO fold is plain appending. -/
theorem fold_fifo_no_evict :
    ∀ (ps : List (Str × Str)) (σ : Cache),
      σ.length + ps.length ≤ maxCacheSize →
      ps.foldl fifoStep σ = σ ++ ps := by
  intro ps
  induction ps with
  | nil => intro σ _; simp
  | cons p rest ih =>
    intro σ h
    simp only [List.foldl_cons]
    have hlt : ¬ maxCacheSize ≤ σ.length := by
      simp only [List.length_cons] at h
      omega
    rw [show fifoStep σ p = σ ++ [p] from by unfold fifoStep; rw [if_neg hlt]]
    rw [ih (σ ++ [p]) (by
      simp only [List.length_append, List.length_cons, List.length_nil] at h ⊢
      omega)]
    simp

/-- Inserting `capacity + 1` nonempty texts with pairwise-distinct
keys into the empty cache leaves exactly the FIFO queue of the last
1000 (key, pipeline-result) pairs: the first key has been evicted. -/
theorem fold_capacity_plus_one (E : NlpExt) (t0 : Str) (rest : List Str)
    (hlen : (t0 :: rest).length = maxCacheSize + 1)
    (hne : ∀ t ∈ t0 :: rest, t ≠ [])
    (hnd : ((t0 :: rest).map (fun t => t.take 100)).Nodup) :
    (t0 :: rest).foldl (fun σ t => (preprocessText E σ t).2) [] =
      rest.map (fun t => (t.take 100, preprocessPipeline E t)) := by
  rw [fold_preprocess_eq_fifo E (t0 :: rest) [] hne hnd (fun t _ => rfl)]
  rw [← List.foldl_map (fun t : Str => (t.take 100, preprocessPipeline E t))
    fifoStep (t0 :: rest) []]
  rcases List.eq_nil_or_concat rest with rfl | ⟨rest', tl, rfl⟩
  · simp [maxCacheSize] at hlen
  rw [List.concat_eq_append] at hlen ⊢
  have hlen' : rest'.length = maxCacheSize - 1 := by
    simp only [List.length_cons, List.length_append, List.length_nil] at hlen
    omega
  have hmap : (t0 :: (rest' ++ [tl])).map
      (fun t => (t.take 100, preprocessPipeline E t)) =
      ((t0 :: rest').map (fun t => (t.take 100, preprocessPipeline E t))) ++
        [(tl.take 100, preprocessPipeline E tl)] := by
    simp
  rw [hmap, List.foldl_append]
  have hinner : ((t0 :: rest').map
      (fun t => (t.take 100, preprocessPipeline E t))).foldl fifoStep [] =
      (t0 :: rest').map (fun t => (t.take 100, preprocessPipeline E t)) := by
    rw [fold_fifo_no_evict]
    · simp
    · simp only [List.length_nil, List.length_map, List.length_cons, hlen',
        maxCacheSize]
      omega
  rw [hinner]
  simp only [List.foldl_cons, List.foldl_nil]
  have hcap : maxCacheSize ≤ ((t0 :: rest').map
      (fun t => (t.take 100, preprocessPipeline E t))).length := by
    simp only [List.length_map, List.length_cons, maxCacheSize] at hlen' ⊢
    omega
  unfold fifoStep
  rw [if_pos hcap]
  simp [List.map_cons, List.tail_cons, List.map_append]

/-- C2: (a) starting at or below capacity, the cache stays at or below
1000 entries after any call; (b) inserting 1001 nonempty texts with
pairwise-distinct 100-character keys into an empty cache leaves
exactly 1000 entries, with the first-inserted key evicted. -/
theorem cache_bound_and_fifo :
    (∀ (E : NlpExt) (σ : Cache) (t : Str), σ.length ≤ maxCacheSize →
      ((preprocessText E σ t).2).length ≤ maxCacheSize) ∧
    (∀ (E : NlpExt) (t0 : Str) (rest : List Str),
      (t0 :: rest).length = maxCacheSize + 1 →
      (∀ t ∈ t0 :: rest, t ≠ []) →
      ((t0 :: rest).map (fun t => t.take 100)).Nodup →
      (((t0 :: rest).foldl (fun σ t => (preprocessText E σ t).2) []).length =
          maxCacheSize ∧
        cacheFind (t0.take 100)
          ((t0 :: rest).foldl (fun σ t => (preprocessText E σ t).2) []) =
          none)) := by
  constructor
  · exact fun E σ t h => preprocess_length_le E σ t h
  · intro E t0 rest hlen hne hnd
    rw [fold_capacity_plus_one E t0 rest hlen hne hnd]
    constructor
    · rw [List.length_map]
      simp only [List.length_cons] at hlen
      omega
    · rw [cacheFind_eq_none_iff]
      intro hmem
      have hkeys : (rest.map
          (fun t => (t.take 100, preprocessPipeline E t))).map Prod.fst =
          rest.map (fun t => t.take 100) := by
        simp [List.map_map, Function.comp]
      rw [hkeys] at hmem
      have hnd' := (List.nodup_cons.mp (by simpa using hnd :
        (t0.take 100 :: rest.map (fun t => t.take 100)).Nodup)).1
      exact hnd' hmem

theorem charOfNat_toNat_eq (n : Nat) (h : n < 55296) :
    (Char.ofNat n).toNat = n := by
  unfold Char.ofNat
  rw [dif_pos (Or.inl h : n.isValidChar)]
  unfold Char.ofNatAux
  simp [Char.toNat, UInt32.toNat]

/-- First text of the 1001-insertion scenario. -/
def c2Head : Str := [Char.ofNat 256]

/-- The 1000 following texts, all with distinct single-character keys. -/
def c2Rest : List Str :=
  (List.range maxCacheSize).map (fun n => [Char.ofNat (257 + n)])

theorem c2Rest_keys_eq : c2Rest.map (fun t => t.take 100) = c2Rest := by
  unfold c2Rest
  rw [List.map_map]
  apply List.map_congr_left
  intro n hn
  rfl

theorem c2Rest_nodup : c2Rest.Nodup := by
  unfold c2Rest
  refine List.Nodup.map_on ?_ (List.nodup_range _)
  intro x hx y hy hxy
  have hx' : x < maxCacheSize := List.mem_range.mp hx
  have hy' : y < maxCacheSize := List.mem_range.mp hy
  simp only [maxCacheSize] at hx' hy'
  have h1 : Char.ofNat (257 + x) = Char.ofNat (257 + y) := by
    simpa using hxy
  have h2 := congrArg Char.toNat h1
  rw [charOfNat_toNat_eq (257 + x) (by omega),
    charOfNat_toNat_eq (257 + y) (by omega)] at h2
  omega

theorem c2Rest_all_singletons : ∀ t ∈ c2Rest, t.length = 1 := by
  intro t ht
  obtain ⟨n, hn, rfl⟩ := List.mem_map.mp ht
  rfl

theorem c2Rest_ne_nil : ∀ t ∈ c2Rest, t ≠ [] := by
  intro t ht h
  have := c2Rest_all_singletons t ht
  rw [h] at this
  simp at this

/-- Witness for C2: the bound at a concrete call, and the 1001-key
eviction scenario at 1001 concrete single-character texts. -/
theorem cache_bound_and_fifo_witness :
    ((preprocessText extId [] (strL "hi")).2).length ≤ maxCacheSize ∧
    (((c2Head :: c2Rest).foldl (fun σ t => (preprocessText extId σ t).2) []).length =
        maxCacheSize ∧
      cacheFind (c2Head.take 100)
        ((c2Head :: c2Rest).foldl (fun σ t => (preprocessText extId σ t).2) []) =
        none) := by
  constructor
  · exact cache_bound_and_fifo.1 extId [] (strL "hi") (by simp [maxCacheSize])
  · apply cache_bound_and_fifo.2 extId c2Head c2Rest
    · simp [c2Rest, maxCacheSize]
    · intro t ht
      rcases List.mem_cons.mp ht with rfl | ht
      · simp [c2Head]
      · exact c2Rest_ne_nil t ht
    · have hkeys : ((c2Head :: c2Rest).map (fun t => t.take 100)) =
          c2Head :: c2Rest := by
        rw [List.map_cons, c2Rest_keys_eq]
        rfl
      rw [hkeys, List.nodup_cons]
      refine ⟨?_, c2Rest_nodup⟩
      intro hmem
      obtain ⟨n, hn, he⟩ := List.mem_map.mp hmem
      have hn' : n < maxCacheSize := List.mem_range.mp hn
      have h1 : Char.ofNat (257 + n) = Char.ofNat 256 := by
        simpa [c2Head] using he
      have h2 := congrArg Char.toNat h1
      rw [charOfNat_toNat_eq (257 + n)
          (by simp only [maxCacheSize] at hn'; omega),
        charOfNat_toNat_eq 256 (by omega)] at h2
      omega

/-! ## Claim C7 (counterexample part) -/

/-- A 120-character text: 100 `x`s then ` wonderful wonderful`. -/
def tLong1 : Str := List.replicate 100 'x' ++ strL " wonderful wonderful"

/-- Same first 100 characters as `tLong1`, different tail. -/
def tLong2 : Str := List.replicate 100 'x' ++ strL " awful awful"

/-- The analyzed history: `tLong1` first, then 1000 fillers that evict
its cache entry, then `tLong2`, which re-populates the shared
100-character key with its own normalization. -/
def c7Texts : List Str := tLong1 :: (c2Rest ++ [tLong2])

/-- The analyzer cache after running `analyze_sentiment` on the whole
history. -/
def c7FinalCache : Cache :=
  (c7Texts.map some).foldl (fun σ i => (analyzeSentiment extId σ i).2) []

/-- For non-empty texts, folding `analyze_sentiment` evolves the cache
exactly as folding `preprocess_text` does. -/
theorem fold_analyze_eq_fold_pre (E : NlpExt) :
    ∀ (ts : List Str) (σ : Cache), (∀ t ∈ ts, t ≠ []) →
      (ts.map some).foldl (fun σ' i => (analyzeSentiment E σ' i).2) σ =
        ts.foldl (fun σ' t => (preprocessText E σ' t).2) σ := by
  intro ts
  induction ts with
  | nil => intro σ _; rfl
  | cons t rest ih =>
    intro σ hne
    simp only [List.map_cons, List.foldl_cons]
    rw [analyzeSentiment_snd E σ t (hne t (by simp))]
    exact ih _ (fun u hu => hne u (by simp [hu]))

theorem tLong1_take : tLong1.take 100 = List.replicate 100 'x' := by decide

theorem tLong2_take : tLong2.take 100 = List.replicate 100 'x' := by decide

theorem xs_not_mem_c2Rest : List.replicate 100 'x' ∉ c2Rest := by
  intro h
  have hlen := c2Rest_all_singletons _ h
  simp at hlen

theorem c7_keys_nodup :
    ((tLong1 :: c2Rest).map (fun t => t.take 100)).Nodup := by
  rw [List.map_cons, tLong1_take, c2Rest_keys_eq, List.nodup_cons]
  exact ⟨xs_not_mem_c2Rest, c2Rest_nodup⟩

theorem c7_cache_after_evict :
    (tLong1 :: c2Rest).foldl (fun σ t => (preprocessText extId σ t).2) [] =
      c2Rest.map (fun t => (t.take 100, preprocessPipeline extId t)) := by
  apply fold_capacity_plus_one extId tLong1 c2Rest
  · simp [c2Rest, maxCacheSize]
  · intro t ht
    rcases List.mem_cons.mp ht with rfl | ht
    · decide
    · exact c2Rest_ne_nil t ht
  · exact c7_keys_nodup

theorem c7_sigma2_keys :
    ((c2Rest.map (fun t => (t.take 100, preprocessPipeline extId t))).map
      Prod.fst) = c2Rest := by
  rw [List.map_map]
  have : (Prod.fst ∘ fun t : Str => (t.take 100, preprocessPipeline extId t)) =
      fun t : Str => t.take 100 := rfl
  rw [this, c2Rest_keys_eq]

theorem c7_sigma2_find :
    cacheFind (tLong2.take 100)
      (c2Rest.map (fun t => (t.take 100, preprocessPipeline extId t))) =
      none := by
  rw [cacheFind_eq_none_iff, c7_sigma2_keys, tLong2_take]
  exact xs_not_mem_c2Rest

theorem c7_final_cache_eq :
    c7FinalCache =
      (c2Rest.map (fun t => (t.take 100, preprocessPipeline extId t))).tail ++
        [(tLong2.take 100, preprocessPipeline extId tLong2)] := by
  unfold c7FinalCache
  rw [fold_analyze_eq_fold_pre extId c7Texts []]
  · unfold c7Texts
    rw [show tLong1 :: (c2Rest ++ [tLong2]) = (tLong1 :: c2Rest) ++ [tLong2]
      from rfl]
    rw [List.foldl_append, c7_cache_after_evict]
    simp only [List.foldl_cons, List.foldl_nil]
    rw [preprocess_miss extId _ tLong2 (by decide) c7_sigma2_find]
    unfold fifoStep
    rw [if_pos (by simp [c2Rest, maxCacheSize])]
  · intro t ht
    unfold c7Texts at ht
    rcases List.mem_cons.mp ht with rfl | ht
    · decide
    · rcases List.mem_append.mp ht with ht | ht
      · exact c2Rest_ne_nil t ht
      · rw [List.mem_singleton.mp ht]
        decide

theorem c7_final_find :
    cacheFind (tLong1.take 100) c7FinalCache =
      some (preprocessPipeline extId tLong2) := by
  rw [c7_final_cache_eq, tLong1_take, ← tLong2_take]
  apply cacheFind_append_self
  rw [cacheFind_eq_none_iff, tLong2_take]
  intro hmem
  have hsub := ((List.tail_sublist _).map Prod.fst).subset hmem
  rw [c7_sigma2_keys] at hsub
  exact xs_not_mem_c2Rest hsub

theorem c7_hit :
    preprocessText extId c7FinalCache tLong1 =
      (preprocessPipeline extId tLong2, c7FinalCache) :=
  preprocess_hit extId c7FinalCache tLong1 _ (by decide) c7_final_find

set_option maxRecDepth 10000 in
theorem pipeline_tLong2 : preprocessPipeline extId tLong2 = tLong2 := by
  decide

theorem c7_second_label :
    (analyzeSentiment extId c7FinalCache (some tLong1)).1.label =
      Label.negative := by
  have hp : (preprocessText extId c7FinalCache tLong1).1 ≠ [] := by
    simp only [c7_hit, pipeline_tLong2]
    decide
  have hrule : getEnhancedSentiment tLong1
      (preprocessText extId c7FinalCache tLong1).1 = none := by
    simp only [c7_hit, pipeline_tLong2]
    decide
  rw [analyze_scorer_path extId c7FinalCache tLong1 (by decide) hp hrule]
  simp only [c7_hit, pipeline_tLong2]
  have hv : (extId.vader tLong2).compound = dq (-2) 10 := by decide
  rw [hv]
  rw [if_neg (by norm_num [dq, Rat.mkRat_eq_div]),
    if_pos (by norm_num [dq, Rat.mkRat_eq_div])]

set_option maxRecDepth 10000 in
theorem c7_first_label :
    (analyzeSentiment extId [] (some tLong1)).1.label = Label.positive := by
  decide

/-- C7 counterexample: the identical input `tLong1` analyzed before
and after the eviction/collision history yields different results —
after 1000 evicting insertions and a colliding 100-character prefix
(`tLong2`), the re-invocation is served `tLong2`'s stale normalization
and flips the label from positive to negative. -/
theorem analyze_retry_not_history_invariant :
    (analyzeSentiment extId c7FinalCache (some tLong1)).1 ≠
      (analyzeSentiment extId [] (some tLong1)).1 ∧
    (analyzeSentiment extId [] (some tLong1)).1.label = Label.positive ∧
    (analyzeSentiment extId c7FinalCache (some tLong1)).1.label =
      Label.negative := by
  refine ⟨?_, c7_first_label, c7_second_label⟩
  intro h
  have hl := congrArg SResult.label h
  rw [c7_first_label, c7_second_label] at hl
  exact absurd hl (by decide)

/-! ## Claim C1: stage fixpoint lemmas -/

theorem lowerStr_eq_self (s : Str) (h : ∀ c ∈ s, c.toLower = c) :
    lowerStr s = s := by
  unfold lowerStr
  rw [List.map_congr_left h]
  exact List.map_id s

theorem foldl_expand_id (tl : Str) (ps : List (Str × Str)) :
    ∀ u : Str, (∀ pr ∈ ps, occurs pr.1 tl = false) →
      ps.foldl (fun acc pr =>
        if occurs pr.1 tl then replaceAll pr.1 pr.2 acc else acc) u = u := by
  induction ps with
  | nil => intro u _; rfl
  | cons p rest ih =>
    intro u h
    simp only [List.foldl_cons]
    rw [if_neg (by simp [h p (by simp)])]
    exact ih u (fun pr hpr => h pr (by simp [hpr]))

theorem expandSlangAndIdioms_id (s : Str) (hl : lowerStr s = s)
    (h : ∀ pr ∈ idiomList ++ slangList, occurs pr.1 s = false) :
    expandSlangAndIdioms s = s := by
  unfold expandSlangAndIdioms
  rw [hl]
  exact foldl_expand_id s _ s h

theorem isPrefL_subset (p : Str) :
    ∀ u : Str, isPrefL p u = true → ∀ c ∈ p, c ∈ u := by
  induction p with
  | nil => intro u _ c hc; simp at hc
  | cons a as ih =>
    intro u hp c hc
    cases u with
    | nil => simp [isPrefL] at hp
    | cons b bs =>
      simp only [isPrefL, Bool.and_eq_true, decide_eq_true_eq] at hp
      rcases List.mem_cons.mp hc with rfl | hc
      · simp [hp.1]
      · exact List.mem_cons.mpr (Or.inr (ih bs hp.2 c hc))

theorem urlMatchAt_eq_none (u : Str) (h : '/' ∉ u) : urlMatchAt u = none := by
  unfold urlMatchAt
  have h1 : isPrefL (strL "https://") u = false := by
    cases hp : isPrefL (strL "https://") u
    · rfl
    · exact absurd (isPrefL_subset _ u hp '/' (by decide)) h
  have h2 : isPrefL (strL "http://") u = false := by
    cases hp : isPrefL (strL "http://") u
    · rfl
    · exact absurd (isPrefL_subset _ u hp '/' (by decide)) h
  simp [h1, h2]

theorem urlStripGo_id : ∀ (fuel : Nat) (u : Str), '/' ∉ u →
    urlStripGo fuel u = u := by
  intro fuel
  induction fuel with
  | zero => intro u _; rfl
  | succ n ih =>
    intro u h
    cases u with
    | nil => rfl
    | cons c rest =>
      simp only [urlStripGo, urlMatchAt_eq_none _ h]
      rw [ih rest (fun hr => h (List.mem_cons.mpr (Or.inr hr)))]

theorem urlStrip_id (s : Str) (h : '/' ∉ s) : urlStrip s = s :=
  urlStripGo_id s.length s h

theorem interiorAt_false (w : Str) (h : '@' ∉ w) :
    ∀ b : Bool, interiorAt b w = false := by
  induction w with
  | nil => intro b; rfl
  | cons c rest ih =>
    intro b
    cases rest with
    | nil => rfl
    | cons d rs =>
      have hc : ¬(c = '@') := fun hc => h (by simp [hc])
      simp only [interiorAt]
      rw [ih (fun hr => h (List.mem_cons.mpr (Or.inr hr))) true]
      simp [hc]

theorem emailStripGo_id : ∀ (fuel : Nat) (u : Str), '@' ∉ u →
    emailStripGo fuel u = u := by
  intro fuel
  induction fuel with
  | zero => intro u _; rfl
  | succ n ih =>
    intro u h
    cases u with
    | nil => rfl
    | cons c rest =>
      simp only [emailStripGo]
      by_cases hws : pyWs c = true
      · rw [if_pos hws, ih rest (fun hr => h (List.mem_cons.mpr (Or.inr hr)))]
      · rw [if_neg hws]
        have hwAt : '@' ∉ (c :: rest).takeWhile (fun d => !pyWs d) :=
          fun hm => h ((List.takeWhile_sublist _).subset hm)
        rw [if_neg (by simp [interiorAt_false _ hwAt false])]
        have hrAt : '@' ∉ (c :: rest).dropWhile (fun d => !pyWs d) :=
          fun hm => h ((List.dropWhile_sublist _).subset hm)
        rw [ih _ hrAt, List.takeWhile_append_dropWhile]

theorem emailStrip_id (s : Str) (h : '@' ∉ s) : emailStrip s = s :=
  emailStripGo_id s.length s h

theorem specialStrip_id (s : Str) (h : ∀ c ∈ s, keepChar c = true) :
    specialStrip s = s := by
  unfold specialStrip
  rw [List.map_congr_left (fun c hc => by rw [if_pos (h c hc)])]
  exact List.map_id s

/-- Tokens that are nonempty and whitespace-free (what the whitespace
collapse needs). -/
def TokOk (ws : List Str) : Prop :=
  ∀ w ∈ ws, w ≠ [] ∧ ∀ c ∈ w, pyWs c = false

theorem chain'_of_noWs (u : Str) (h : ∀ c ∈ u, pyWs c = false) :
    u.Chain' (fun a b => pyWs a = false ∨ pyWs b = false) := by
  induction u with
  | nil => exact List.chain'_nil
  | cons c rest ih =>
    rw [List.chain'_cons']
    exact ⟨fun y _ => Or.inl (h c (by simp)),
      ih (fun d hd => h d (by simp [hd]))⟩

theorem squeezeGo_id : ∀ (fuel : Nat) (u : Str),
    (∀ c ∈ u, pyWs c = true → c = ' ') →
    u.Chain' (fun a b => pyWs a = false ∨ pyWs b = false) →
    squeezeGo fuel u = u := by
  intro fuel
  induction fuel with
  | zero => intro u _ _; rfl
  | succ n ih =>
    intro u honly hchain
    cases u with
    | nil => rfl
    | cons c rest =>
      by_cases hws : pyWs c = true
      · have hc : c = ' ' := honly c (by simp) hws
        have hdrop : rest.dropWhile pyWs = rest := by
          cases rest with
          | nil => rfl
          | cons d rs =>
            have hrel := (List.chain'_cons'.mp hchain).1 d rfl
            rcases hrel with h | h
            · rw [hws] at h; cases h
            · rw [List.dropWhile_cons, if_neg (by simp [h])]
        simp only [squeezeGo, if_pos hws, hdrop]
        rw [ih rest (fun e he hw => honly e (by simp [he]) hw)
          (List.chain'_cons'.mp hchain).2, hc]
      · simp only [squeezeGo, if_neg hws]
        rw [ih rest (fun e he hw => honly e (by simp [he]) hw)
          (List.chain'_cons'.mp hchain).2]

theorem stripEnds_id (u : Str)
    (hh : ∀ c ∈ u.head?, pyWs c = false)
    (hl : ∀ c ∈ u.getLast?, pyWs c = false) :
    stripEnds u = u := by
  unfold stripEnds
  have h1 : u.dropWhile pyWs = u := by
    cases u with
    | nil => rfl
    | cons c rest =>
      rw [List.dropWhile_cons, if_neg (by simp [hh c rfl])]
  rw [h1]
  have h2 : u.reverse.dropWhile pyWs = u.reverse := by
    cases hrev : u.reverse with
    | nil => rfl
    | cons c rest =>
      have hc : u.getLast? = some c := by
        rw [← List.head?_reverse, hrev]; rfl
      rw [List.dropWhile_cons, if_neg (by simp [hl c (by rw [hc]; rfl)])]
  rw [h2, List.reverse_reverse]

theorem mem_joinSpace : ∀ (ws : List Str) (c : Char), c ∈ joinSpace ws →
    (∃ w ∈ ws, c ∈ w) ∨ c = ' ' := by
  intro ws
  induction ws with
  | nil => intro c hc; simp [joinSpace] at hc
  | cons w ws' ih =>
    intro c hc
    cases ws' with
    | nil => exact Or.inl ⟨w, by simp, hc⟩
    | cons v vs =>
      simp only [joinSpace] at hc
      rcases List.mem_append.mp hc with hc | hc
      · exact Or.inl ⟨w, by simp, hc⟩
      · rcases List.mem_cons.mp hc with rfl | hc
        · exact Or.inr rfl
        · rcases ih c hc with ⟨u, hu, hcu⟩ | rfl
          · exact Or.inl ⟨u, by simp [List.mem_cons.mp hu], hcu⟩
          · exact Or.inr rfl

theorem joinSpace_head? (v : Str) (ws' : List Str) (hv : v ≠ []) :
    (joinSpace (v :: ws')).head? = v.head? := by
  cases ws' with
  | nil => rfl
  | cons u us =>
    cases v with
    | nil => exact absurd rfl hv
    | cons a v' => rfl

theorem joinSpace_ne_nil : ∀ (ws : List Str), ws ≠ [] →
    (∀ w ∈ ws, w ≠ []) → joinSpace ws ≠ [] := by
  intro ws hne hok
  cases ws with
  | nil => exact absurd rfl hne
  | cons v ws' =>
    cases ws' with
    | nil => exact hok v (by simp)
    | cons u us =>
      simp only [joinSpace]
      simp

theorem chain'_joinSpace : ∀ (ws : List Str), TokOk ws →
    (joinSpace ws).Chain' (fun a b => pyWs a = false ∨ pyWs b = false) := by
  intro ws
  induction ws with
  | nil => intro _; exact List.chain'_nil
  | cons w ws' ih =>
    intro hok
    cases ws' with
    | nil => exact chain'_of_noWs w (hok w (by simp)).2
    | cons v vs =>
      have hok' : TokOk (v :: vs) := fun u hu => hok u (by simp [List.mem_cons.mp hu])
      simp only [joinSpace]
      rw [List.chain'_append]
      refine ⟨chain'_of_noWs w (hok w (by simp)).2, ?_, ?_⟩
      · rw [List.chain'_cons']
        refine ⟨?_, ih hok'⟩
        intro y hy
        rw [joinSpace_head? v vs (hok' v (by simp)).1] at hy
        exact Or.inr ((hok' v (by simp)).2 y (List.mem_of_mem_head? hy))
      · intro x hx y hy
        exact Or.inl ((hok w (by simp)).2 x (List.mem_of_mem_getLast? hx))

theorem joinSpace_getLast?_nonWs : ∀ (ws : List Str), TokOk ws →
    ∀ c ∈ (joinSpace ws).getLast?, pyWs c = false := by
  intro ws
  induction ws with
  | nil => intro _ c hc; simp [joinSpace] at hc
  | cons w ws' ih =>
    intro hok c hc
    cases ws' with
    | nil =>
      exact (hok w (by simp)).2 c (List.mem_of_mem_getLast? hc)
    | cons v vs =>
      have hok' : TokOk (v :: vs) := fun u hu => hok u (by simp [List.mem_cons.mp hu])
      obtain ⟨j, J', hJ⟩ : ∃ j J', joinSpace (v :: vs) = j :: J' := by
        cases hJ0 : joinSpace (v :: vs) with
        | nil =>
          exact absurd hJ0 (joinSpace_ne_nil (v :: vs) (by simp)
            (fun u hu => (hok' u hu).1))
        | cons j J' => exact ⟨j, J', rfl⟩
      simp only [joinSpace] at hc
      rw [List.getLast?_append, hJ, List.getLast?_cons_cons] at hc
      obtain ⟨x, hx⟩ := Option.isSome_iff_exists.mp
        (List.getLast?_isSome.mpr (List.cons_ne_nil j J'))
      rw [hx, show (some x).or w.getLast? = some x from rfl] at hc
      have hcx : x = c := by simpa using hc
      rw [← hcx]
      exact ih hok' x (by rw [hJ, hx]; rfl)

theorem collapseWs_joinSpace_id (ws : List Str) (hok : TokOk ws) :
    collapseWs (joinSpace ws) = joinSpace ws := by
  unfold collapseWs
  have honly : ∀ c ∈ joinSpace ws, pyWs c = true → c = ' ' := by
    intro c hc hw
    rcases mem_joinSpace ws c hc with ⟨u, hu, hcu⟩ | rfl
    · rw [(hok u hu).2 c hcu] at hw; cases hw
    · rfl
  rw [squeezeGo_id _ _ honly (chain'_joinSpace ws hok)]
  apply stripEnds_id
  · intro c hc
    cases ws with
    | nil => simp [joinSpace] at hc
    | cons v ws' =>
      rw [joinSpace_head? v ws' (hok v (by simp)).1] at hc
      exact (hok v (by simp)).2 c (List.mem_of_mem_head? hc)
  · exact joinSpace_getLast?_nonWs ws hok

/-- Tokens well-formed for idempotence: nonempty and made of kept,
non-whitespace, lowercase-stable characters. -/
def GoodToken (w : Str) : Prop :=
  w ≠ [] ∧ ∀ c ∈ w, keepChar c = true ∧ pyWs c = false ∧ c.toLower = c

/-- C1: normalization is idempotent.  For any text `t`, feeding its
normalization `s = preprocessPipeline E t` back through
`preprocess_text` returns `s` unchanged, under the contracts on the
opaque NLTK components at `s`: the cache has no (possibly stale) entry
for `s`; the produced tokens are nonempty, whitespace-free,
lowercase-stable and within the kept character class; `s` contains no
slang/idiom trigger; retokenizing `s` recovers the same token list; no
token lowers to a stopword; and the lemmatizer fixes the tokens it
already produced. -/
theorem normalize_idempotent (E : NlpExt) (σ : Cache) (t : Str)
    (hmiss : cacheFind ((preprocessPipeline E t).take 100) σ = none)
    (htok : ∀ w ∈ finalTokens E t, GoodToken w)
    (htrig : ∀ pr ∈ idiomList ++ slangList,
      occurs pr.1 (preprocessPipeline E t) = false)
    (hretok : E.tokenize (preprocessPipeline E t) = finalTokens E t)
    (hstop : ∀ w ∈ finalTokens E t, E.isStop (lowerStr w) = false)
    (hfix : ∀ w ∈ finalTokens E t, E.lemmatize w = w) :
    (preprocessText E σ (preprocessPipeline E t)).1 =
      preprocessPipeline E t := by
  by_cases hs : preprocessPipeline E t = []
  · rw [hs]; simp [preprocessText]
  · simp only [preprocessText, if_neg hs, hmiss]
    show preprocessPipeline E (preprocessPipeline E t) = preprocessPipeline E t
    have hTokOk : TokOk (finalTokens E t) := fun w hw =>
      ⟨(htok w hw).1, fun c hc => ((htok w hw).2 c hc).2.1⟩
    have hchars : ∀ c ∈ preprocessPipeline E t,
        c = ' ' ∨ (keepChar c = true ∧ pyWs c = false ∧ c.toLower = c) := by
      intro c hc
      rcases mem_joinSpace _ c hc with ⟨w, hw, hcw⟩ | rfl
      · exact Or.inr ((htok w hw).2 c hcw)
      · exact Or.inl rfl
    have hlower : lowerStr (preprocessPipeline E t) = preprocessPipeline E t := by
      apply lowerStr_eq_self
      intro c hc
      rcases hchars c hc with rfl | h
      · rfl
      · exact h.2.2
    have hexp := expandSlangAndIdioms_id _ hlower htrig
    have hslash : '/' ∉ preprocessPipeline E t := by
      intro hm
      rcases hchars _ hm with h | h
      · exact absurd h (by decide)
      · exact absurd h.1 (by decide)
    have hat : '@' ∉ preprocessPipeline E t := by
      intro hm
      rcases hchars _ hm with h | h
      · exact absurd h (by decide)
      · exact absurd h.1 (by decide)
    have hkeep : ∀ c ∈ preprocessPipeline E t, keepChar c = true := by
      intro c hc
      rcases hchars c hc with rfl | h
      · decide
      · exact h.1
    have hurl := urlStrip_id _ hslash
    have hemail := emailStrip_id _ hat
    have hspecial := specialStrip_id _ hkeep
    have hcollapse : collapseWs (preprocessPipeline E t) =
        preprocessPipeline E t := collapseWs_joinSpace_id _ hTokOk
    show joinSpace (((E.tokenize (collapseWs (specialStrip (emailStrip
        (urlStrip (expandSlangAndIdioms
          (lowerStr (preprocessPipeline E t)))))))).filter
        (fun tok => !E.isStop (lowerStr tok))).map E.lemmatize) =
      preprocessPipeline E t
    rw [hlower, hexp, hurl, hemail, hspecial, hcollapse, hretok]
    rw [List.filter_eq_self.mpr (fun w hw => by rw [hstop w hw]; rfl)]
    rw [List.map_congr_left hfix, List.map_id']
    rfl

instance (w : Str) : Decidable (GoodToken w) := by
  unfold GoodToken
  infer_instance

/-- Witness for C1: the normalization of `"Hello World!"` under the
concrete external environment is `"hello world!"`, and normalizing it
again returns it unchanged; all external contracts hold concretely. -/
theorem normalize_idempotent_witness :
    (preprocessText extId []
        (preprocessPipeline extId (strL "Hello World!"))).1 =
      preprocessPipeline extId (strL "Hello World!") :=
  normalize_idempotent extId [] (strL "Hello World!") (by decide) (by decide)
    (by decide) (by decide) (by decide) (by decide)
